import Mathlib

/-!
# Verification of the megaconvert job-orchestration core

A shallow embedding of the job orchestration and page-algebra code of the
megaconvert repository, together with theorems settling the specification
claims about it.

Embedded source locations:
* `server/services/documentConverter.js` — `parsePageRange`, `subsetPdf`,
  `splitPdf`, and the inline worker pool of `pdfToImagesViaLibreOffice`;
* `server/services/imageConverter.js` — `runLimited`;
* `server/routes/converter.js` — `detectCategory`, the job record, the
  `progress` closure, the finalize steps of `runConversionJob`, and the
  cancel endpoint.

JavaScript numbers that the code only ever adds, divides and rounds are
modelled as rationals (`ℚ`); `Math.round` is `round` (both round half
toward positive infinity); JS-falsy checks on numbers (`!totalPages`,
`rate ? _ : null`) are modelled as explicit comparisons with `0`; a JS
value that may be `null`/`NaN` is an `Option`.
-/

namespace MegaConvert

/-! ## Page-range parsing (`documentConverter.js`, `parsePageRange`) -/

/-- Value of a big-endian list of decimal digit characters. -/
def digitsToNat (ds : List Char) : Nat :=
  ds.foldl (fun a c => a * 10 + (c.toNat - '0'.toNat)) 0

/-- JS `String.prototype.split(',')` on a character list: splits at every
comma and keeps empty pieces. -/
def splitOnComma : List Char → List (List Char)
  | [] => [[]]
  | a :: rest =>
    match splitOnComma rest with
    | [] => [[a]]
    | h :: t => if a = ',' then [] :: h :: t else (a :: h) :: t

/-- JS `String.prototype.trim` on a character list. -/
def trimChars (s : List Char) : List Char :=
  ((s.dropWhile Char.isWhitespace).reverse.dropWhile Char.isWhitespace).reverse

/-- The anchored regex `^(\d+)\s*-\s*(\d+)$` used by `parsePageRange` for
`start-end` chunks; returns the two captured numerals. -/
def matchRangePair (cs : List Char) : Option (Nat × Nat) :=
  let d1 := cs.takeWhile Char.isDigit
  let r1 := cs.dropWhile Char.isDigit
  if d1.isEmpty then none
  else
    match r1.dropWhile Char.isWhitespace with
    | '-' :: r2 =>
      let r3 := r2.dropWhile Char.isWhitespace
      let d2 := r3.takeWhile Char.isDigit
      let r4 := r3.dropWhile Char.isDigit
      if d2.isEmpty || !r4.isEmpty then none
      else some (digitsToNat d1, digitsToNat d2)
    | _ => none

/-- JS `parseInt(chunk, 10)`: skip leading whitespace, an optional sign,
then the longest leading run of decimal digits; `none` models `NaN`. -/
def parseIntJS (cs : List Char) : Option Int :=
  let lead : List Char → Option Nat := fun xs =>
    let d := xs.takeWhile Char.isDigit
    if d.isEmpty then none else some (digitsToNat d)
  match cs.dropWhile Char.isWhitespace with
  | '+' :: rest => (lead rest).map Int.ofNat
  | '-' :: rest => (lead rest).map (fun n => -(n : Int))
  | other => (lead other).map Int.ofNat

/-- `Set.prototype.add`: appends a value unless already present (JS sets
keep insertion order and ignore duplicate adds). -/
def setAdd (x : Nat) (acc : List Nat) : List Nat :=
  if x ∈ acc then acc else acc ++ [x]

/-- One iteration of the `for (const chunk of chunks)` loop of
`parsePageRange`: a `start-end` chunk adds the order-normalized range, each
page guarded by `p >= 1 && (!totalPages || p <= totalPages)`; any other
chunk goes through `parseInt` and the single parsed page is added under the
same guard.  `totalPages = 0` models the JS-falsy unknown page count. -/
def addChunk (totalPages : Nat) (acc : List Nat) (chunk : List Char) : List Nat :=
  match matchRangePair chunk with
  | some (a, b) =>
    let s := if a > b then b else a
    let e := if a > b then a else b
    (List.range' s (e + 1 - s)).foldl
      (fun acc p =>
        if 1 ≤ p ∧ (totalPages = 0 ∨ p ≤ totalPages) then setAdd p acc else acc) acc
  | none =>
    match parseIntJS chunk with
    | some p =>
      if 1 ≤ p ∧ (totalPages = 0 ∨ p ≤ (totalPages : Int)) then setAdd p.toNat acc else acc
    | none => acc

/-- `parsePageRange(rangeStr, totalPages)` on a character list: empty or
all-blank input yields `[]`; otherwise the comma-separated chunks are
trimmed, empty chunks dropped, each remaining chunk added to a set, and the
set's elements returned sorted ascending (`Array.from(set).sort((a,b)=>a-b)`). -/
def parsePageRangeL (rangeStr : List Char) (totalPages : Nat) : List Nat :=
  if trimChars rangeStr = [] then []
  else
    let chunks := ((splitOnComma rangeStr).map trimChars).filter (fun c => !c.isEmpty)
    List.insertionSort (· ≤ ·) (chunks.foldl (addChunk totalPages) [])

/-- `parsePageRange` on a Lean string. -/
def parsePageRange (rangeStr : String) (totalPages : Nat) : List Nat :=
  parsePageRangeL rangeStr.data totalPages

/-! ## PDF page operations (`documentConverter.js`, `subsetPdf` / `splitPdf`)

A PDF document is modelled as the list of its pages. -/

/-- pdf-lib's `copyPages(srcDoc, indices)`: fails when a zero-based index
is out of range (the spec's `DocumentError`), otherwise returns the pages
at the given indices in the given order. -/
def copyPages {P : Type} (doc : List P) (idxs : List Nat) : Except String (List P) :=
  if idxs.all (fun i => i < doc.length) then
    Except.ok (idxs.filterMap (fun i => doc.get? i))
  else Except.error "copyPages: page index out of range"

/-- `subsetPdf(inputPdf, outputPdf, pages)`: an empty `pages` defaults to
`[1..total]`; the selection is shifted to zero-based indices, out-of-range
indices are filtered out, and the remaining pages copied in order. -/
def subsetPdf {P : Type} (doc : List P) (pages : List Int) : Except String (List P) :=
  let total : Int := doc.length
  let selected : List Int :=
    if pages.isEmpty then (List.range doc.length).map (fun i : Nat => (i : Int) + 1) else pages
  let zeroBased := (selected.map (fun p => p - 1)).filter (fun i => 0 ≤ i ∧ i < total)
  copyPages doc (zeroBased.map Int.toNat)

/-- The `for (const r of rangeList)` loop of `splitPdf`: resolve each
range spec against the source page count, skip specs that resolve to no
pages, subset the source for each remaining spec, and collect the outputs
in order. -/
def splitGo {P : Type} (doc : List P) (total : Nat) :
    List String → Except String (List (List P))
  | [] => Except.ok []
  | r :: rest =>
    let pages := parsePageRange r total
    if pages.isEmpty then splitGo doc total rest
    else
      match subsetPdf doc (pages.map (fun p : Nat => (p : Int))) with
      | Except.error e => Except.error e
      | Except.ok d =>
        match splitGo doc total rest with
        | Except.error e => Except.error e
        | Except.ok ds => Except.ok (d :: ds)

/-- `splitPdf(inputPdf, ranges, outDir, base)` with an array argument:
an empty array throws `split: no ranges provided`; otherwise the
per-range loop runs against the source's page count. -/
def splitPdf {P : Type} (doc : List P) (ranges : List String) :
    Except String (List (List P)) :=
  if ranges.isEmpty then Except.error "split: no ranges provided"
  else splitGo doc doc.length ranges

/-! ## Job records and the registry's execution routine (`converter.js`) -/

/-- The job `status` field. -/
inductive Status
  | queued
  | running
  | completed
  | failed
  | cancelled
  deriving DecidableEq, Repr

/-- The mutable fields of a job record that the claims are about
(`newJob` in `converter.js`; `id`, `inputPath`, `meta` and `createdAt`
play no role in the claims). -/
structure Job where
  status : Status
  progress : ℚ
  etaSeconds : Option ℤ
  outputPath : Option String
  error : Option String
  deriving DecidableEq, Repr

/-- A freshly created job (`newJob`). -/
def newJob : Job :=
  { status := Status.queued, progress := 0, etaSeconds := none,
    outputPath := none, error := none }

/-- The `progress` closure of `runConversionJob`, applied to a job that is
still in the registry.  `now` and `started` are clock readings in
milliseconds; `Number(p) || 0` followed by the clamp is
`max 0 (min 100 p)` for a (finite) numeric `p`; the JS truthiness test
`rate ? _ : null` is false exactly for a missing or zero rate. -/
def applyProgress (j : Job) (p : ℚ) (now started : ℚ) : Job :=
  let prog := max 0 (min 100 p)
  let elapsed := (now - started) / 1000
  let rate : Option ℚ := if 0 < prog then some (elapsed / (prog / 100)) else none
  let eta : Option ℤ :=
    match rate with
    | some r => if r = 0 then none else some (max 0 (round (r - elapsed)))
    | none => none
  { j with progress := prog, etaSeconds := eta }

/-- ETA formula as the spec words it, for comparison with `applyProgress`.
Modelled from the spec: "if `p > 0`, `rate = elapsed / (p/100)` and
`etaSeconds = max(0, round(rate - elapsed))`; if `p == 0`,
`etaSeconds = null`". -/
def etaSpecC2 (p elapsed : ℚ) : Option ℤ :=
  if 0 < p then some (max 0 (round (elapsed / (p / 100) - elapsed))) else none

/-- The success finalize of `runConversionJob`: the status is checked
first and a cancelled job is left untouched (the conversion result is
discarded); otherwise the job is completed. -/
def finalizeSuccess (j : Job) (out : Option String) : Job :=
  if j.status = Status.cancelled then j
  else { j with outputPath := out, status := Status.completed,
                progress := 100, etaSeconds := some 0 }

/-- The `catch` block of `runConversionJob`, applied to a job still in the
registry: no status check is performed before mutating. -/
def finalizeFailure (j : Job) (msg : String) : Job :=
  { j with status := Status.failed, error := some msg, etaSeconds := none }

/-- The cancel endpoint (`DELETE /api/cancel/:jobId`) on a job found in
the registry: rejected for `completed`/`failed` jobs, otherwise the status
becomes `cancelled` (the record stays in the registry). -/
def cancelJob (j : Job) : Except String Job :=
  if j.status = Status.completed ∨ j.status = Status.failed then
    Except.error "Job already finished"
  else Except.ok { j with status := Status.cancelled }

/-! ## Category dispatch (`converter.js`, `ext` / `detectCategory`) -/

/-- The conversion categories, plus `unknown`. -/
inductive Category
  | audio
  | image
  | document
  | archive
  | presentation
  | font
  | ebook
  | unknown
  deriving DecidableEq, Repr

/-- `audioConverter.js` `SUPPORTED_INPUTS`. -/
def audioInputs : List String :=
  ["mp3", "wav", "ogg", "m4a", "flac", "aac", "wma", "aiff", "opus"]

/-- `imageConverter.js` `SUPPORTED_INPUTS`. -/
def imageInputs : List String :=
  ["jpg", "jpeg", "png", "webp", "gif", "bmp", "tif", "tiff", "svg", "ico", "heic"]

/-- `documentConverter.js` `SUPPORTED_INPUTS`. -/
def documentInputs : List String :=
  ["pdf", "docx", "doc", "txt", "rtf", "odt", "html", "htm", "epub"]

/-- `archiveConverter.js` `SUPPORTED_INPUTS`. -/
def archiveInputs : List String :=
  ["zip", "7z", "rar", "tar", "gz", "bz2", "xz"]

/-- `presentationConverter.js` `SUPPORTED_INPUTS`. -/
def presentationInputs : List String :=
  ["pptx", "ppt", "odp", "key", "pdf"]

/-- `fontConverter.js` `SUPPORTED_INPUTS`. -/
def fontInputs : List String :=
  ["ttf", "otf", "woff", "woff2", "eot"]

/-- `ebookConverter.js` `SUPPORTED_INPUTS`. -/
def ebookInputs : List String :=
  ["epub", "mobi", "azw3", "pdf", "txt", "html"]

/-- Characters after the last occurrence of `sep` (the whole list when
`sep` does not occur). -/
def afterLast (sep : Char) (s : List Char) : List Char :=
  (s.reverse.takeWhile (fun c => c ≠ sep)).reverse

/-- `ext(p)` from `converter.js`:
`path.extname(p).replace(/^\./, '').toLowerCase()`.  `path.extname`
returns the suffix of the basename from its last dot, or the empty string
when the basename has no dot or only a leading dot; the `replace` strips
the leading dot. -/
def extOf (p : String) : String :=
  let base := afterLast '/' p.data
  let e :=
    match base with
    | [] => []
    | _ :: rest => if rest.contains '.' then afterLast '.' rest else []
  String.mk (e.map Char.toLower)

/-- The body of `detectCategory` after extension extraction: the seven
`SUPPORTED_INPUTS.has(e)` checks in source order, first match wins. -/
def categoryForExt (e : String) : Category :=
  if e ∈ audioInputs then Category.audio
  else if e ∈ imageInputs then Category.image
  else if e ∈ documentInputs then Category.document
  else if e ∈ archiveInputs then Category.archive
  else if e ∈ presentationInputs then Category.presentation
  else if e ∈ fontInputs then Category.font
  else if e ∈ ebookInputs then Category.ebook
  else Category.unknown

/-- `detectCategory(filePath)` from `converter.js`. -/
def detectCategory (filePath : String) : Category :=
  categoryForExt (extOf filePath)

/-- The capability registry in its hard-coded priority order, for the
spec-level "first match wins" reading of `detectCategory`. -/
def capabilityOrder : List (Category × List String) :=
  [(Category.audio, audioInputs), (Category.image, imageInputs),
   (Category.document, documentInputs), (Category.archive, archiveInputs),
   (Category.presentation, presentationInputs), (Category.font, fontInputs),
   (Category.ebook, ebookInputs)]

/-- First category in a priority list whose input set contains `e`.
Modelled from the spec: "checked against each registered capability's
`supportedInputs` in a fixed priority order; first match wins". -/
def firstMatchIn (e : String) : List (Category × List String) → Category
  | [] => Category.unknown
  | c :: rest => if e ∈ c.2 then c.1 else firstMatchIn e rest

/-- Spec-level dispatch: first match in the hard-coded capability order. -/
def firstMatchCategory (e : String) : Category :=
  firstMatchIn e capabilityOrder

/-! ## Bounded worker pool

The shared shape of `runLimited` (`imageConverter.js`) and the inline pool
of `pdfToImagesViaLibreOffice` (`documentConverter.js`): counters `next`
and `active`, a pre-sized `results` array, a synchronous `launch` loop,
and a completion handler that stores the result, decrements `active`, and
either resolves or launches more work.  The set `inflight` records the
indices of started-but-unfinished workers, so `active` is its size;
`resolved`/`rejected` record whether `resolve()`/`reject()` has been
called.  Steps are atomic because the JS event loop runs the launch loop
and each completion handler to completion. -/

/-- Pool state between scheduler steps. -/
structure PoolState (R : Type) where
  next : Nat
  inflight : Finset Nat
  results : List (Option R)
  resolved : Bool
  rejected : Bool
  deriving DecidableEq

/-- Start worker `next` (the body of one `launch`-loop iteration). -/
def spawnOne {R : Type} (s : PoolState R) : PoolState R :=
  { s with next := s.next + 1, inflight := insert s.next s.inflight }

/-- The `while (active < limit && next < n)` loop, with explicit fuel. -/
def launchGo {R : Type} (limit n : Nat) : Nat → PoolState R → PoolState R
  | 0, s => s
  | fuel + 1, s =>
    if s.inflight.card < limit ∧ s.next < n then launchGo limit n fuel (spawnOne s)
    else s

/-- The `launch()` closure: `n - s.next` fuel always suffices because each
iteration increments `next` and the guard requires `next < n`. -/
def launch {R : Type} (limit n : Nat) (s : PoolState R) : PoolState R :=
  launchGo limit n (n - s.next) s

/-- State when the promise executor starts: `next = 0`, `active = 0`,
`results = new Array(n)`. -/
def initState (R : Type) (n : Nat) : PoolState R :=
  { next := 0, inflight := ∅, results := List.replicate n none,
    resolved := false, rejected := false }

/-- State after the executor's initial synchronous `launch()` call. -/
def poolStart (R : Type) (limit n : Nat) : PoolState R :=
  launch limit n (initState R n)

/-- Successful completion of in-flight worker `i`: store
`worker items[i]` at index `i`, decrement `active`, then either resolve
(`next >= n && active === 0`) or launch more work. -/
def completeStep {I R : Type} (items : List I) (worker : I → R) (limit : Nat)
    (i : Nat) (s : PoolState R) : PoolState R :=
  let n := items.length
  let s1 : PoolState R :=
    { s with inflight := s.inflight.erase i,
             results := s.results.set i ((items.get? i).map worker) }
  if n ≤ s1.next ∧ s1.inflight = ∅ then { s1 with resolved := true }
  else launch limit n s1

/-- Failure of an in-flight worker: `reject(err)` is called; counters and
results are not touched. -/
def failStep {R : Type} (s : PoolState R) : PoolState R :=
  { s with rejected := true }

/-- Pool states reachable under an arbitrary interleaving of worker
completions: the initial synchronous launch, then any in-flight worker may
be the next to complete (or fail). -/
inductive PoolReachable {I R : Type} (items : List I) (worker : I → R) (limit : Nat) :
    PoolState R → Prop
  | init : PoolReachable items worker limit (poolStart R limit items.length)
  | step {s : PoolState R} {i : Nat} :
      PoolReachable items worker limit s → i ∈ s.inflight →
      PoolReachable items worker limit (completeStep items worker limit i s)
  | fail {s : PoolState R} {i : Nat} :
      PoolReachable items worker limit s → i ∈ s.inflight →
      PoolReachable items worker limit (failStep s)

/-- Scheduler invariant of the pool: the results array keeps its size;
`next` never passes the item count; in-flight indices were all started;
`active = |inflight|` never exceeds the limit and stays saturated while
items remain; finished slots hold the worker's result for their item and
unstarted slots are still empty; and `resolve()` fires only with all
items started and none in flight. -/
def PoolInv {I R : Type} (items : List I) (worker : I → R) (limit : Nat)
    (s : PoolState R) : Prop :=
  s.results.length = items.length ∧
  s.next ≤ items.length ∧
  (∀ i ∈ s.inflight, i < s.next) ∧
  s.inflight.card ≤ limit ∧
  (s.next < items.length → s.inflight.card = limit) ∧
  (∀ k, k < s.next → k ∉ s.inflight →
    s.results.get? k = some ((items.get? k).map worker)) ∧
  (∀ k, s.next ≤ k → k < items.length → s.results.get? k = some none) ∧
  (s.resolved = true → items.length ≤ s.next ∧ s.inflight = ∅)

/-! ## List helper lemmas -/

theorem all_over_map {A B : Type} (l : List A) (f : A → B) (p : B → Bool) :
    (l.map f).all p = l.all (fun x => p (f x)) := by
  induction l with
  | nil => rfl
  | cons a t ih => simp [List.all_cons, ih]

theorem filterMap_get?_range {P : Type} (l : List P) :
    (List.range l.length).filterMap (fun i => l.get? i) = l := by
  induction l with
  | nil => simp
  | cons a t ih =>
    rw [List.length_cons, List.range_succ_eq_map]
    simp only [List.filterMap_cons, List.get?_cons_zero, List.filterMap_map]
    have h2 : ((fun i => (a :: t).get? i) ∘ Nat.succ) = fun i => t.get? i := rfl
    rw [h2, ih]

/-! ## Lemmas about `subsetPdf` -/

/-- With an empty page list, `subsetPdf` selects `[1..total]`, all of
which survive the bounds filter, so every page is copied in order. -/
theorem subsetPdf_nil {P : Type} (doc : List P) : subsetPdf doc [] = Except.ok doc := by
  unfold subsetPdf copyPages
  simp only [List.isEmpty_nil, if_true, List.map_map, List.filter_map, List.filterMap_map]
  have hpred : ∀ i ∈ List.range doc.length,
      ((fun i => decide (0 ≤ i ∧ i < (doc.length : Int))) ∘
        ((fun p : Int => p - 1) ∘ fun i : Nat => (i : Int) + 1)) i = true := by
    intro i hi
    have := List.mem_range.mp hi
    simp only [Function.comp]
    simp
    omega
  rw [List.filter_eq_self.mpr hpred]
  have hcomp : (Int.toNat ∘ ((fun p : Int => p - 1) ∘ fun i : Nat => (i : Int) + 1)) = id := by
    funext i
    simp
  rw [hcomp, List.map_id]
  have hall : (List.range doc.length).all (fun i => decide (i < doc.length)) = true := by
    simp [List.all_eq_true, List.mem_range]
  have hid : ((fun i => doc.get? i) ∘ id) = fun i => doc.get? i := rfl
  rw [hall, if_pos rfl, hid, filterMap_get?_range]

/-- With a non-empty page list, `subsetPdf` never fails: the bounds
filter removes every out-of-range entry before `copyPages`, so the result
is exactly the in-range pages, in the order given. -/
theorem subsetPdf_ok_filter {P : Type} (doc : List P) (pages : List Int) (h : pages ≠ []) :
    subsetPdf doc pages =
      Except.ok ((pages.filter (fun p => 1 ≤ p ∧ p ≤ (doc.length : Int))).filterMap
        (fun p => doc.get? (p - 1).toNat)) := by
  unfold subsetPdf copyPages
  have hne : pages.isEmpty = false := by
    cases pages with
    | nil => exact absurd rfl h
    | cons a t => rfl
  rw [hne]
  simp only [Bool.false_eq_true, if_false, List.filter_map, List.filterMap_map]
  have hpred : ∀ p ∈ pages,
      ((fun i => decide (0 ≤ i ∧ i < (doc.length : Int))) ∘ (fun p : Int => p - 1)) p =
        decide (1 ≤ p ∧ p ≤ (doc.length : Int)) := by
    intro p _
    simp only [Function.comp]
    have : (0 ≤ p - 1 ∧ p - 1 < (doc.length : Int)) ↔ (1 ≤ p ∧ p ≤ (doc.length : Int)) := by
      omega
    exact decide_eq_decide.mpr this
  rw [List.filter_congr hpred]
  have hall : ((pages.filter (fun p => decide (1 ≤ p ∧ p ≤ (doc.length : Int)))).all
      ((fun i => decide (i < doc.length)) ∘ (fun p : Int => (p - 1).toNat))) = true := by
    rw [List.all_eq_true]
    intro p hp
    have hmem := (List.mem_filter.mp hp).2
    have hb : 1 ≤ p ∧ p ≤ (doc.length : Int) := of_decide_eq_true hmem
    simp only [Function.comp]
    simp
    omega
  rw [List.map_map, all_over_map]
  have hall2 : ((List.filter (fun x => decide (1 ≤ x ∧ x ≤ (doc.length : Int))) pages).all fun x =>
      decide ((Int.toNat ∘ fun p : Int => p - 1) x < doc.length)) = true := hall
  rw [hall2, if_pos rfl]
  rfl

/-! ## Lemmas about `parsePageRange` -/

theorem setAdd_mem (x y : Nat) (acc : List Nat) : x ∈ setAdd y acc ↔ x ∈ acc ∨ x = y := by
  by_cases h : y ∈ acc
  · simp only [setAdd, if_pos h]
    constructor
    · exact Or.inl
    · rintro (h2 | rfl)
      · exact h2
      · exact h
  · simp [setAdd, if_neg h, List.mem_append]

theorem setAdd_nodup (y : Nat) (acc : List Nat) (h : acc.Nodup) : (setAdd y acc).Nodup := by
  by_cases hy : y ∈ acc
  · simpa [setAdd, if_pos hy] using h
  · simp [setAdd, if_neg hy, List.nodup_append, h, hy]

theorem guardFold_mem (g : Nat → Prop) [DecidablePred g] (l : List Nat) (acc : List Nat)
    (x : Nat) :
    (x ∈ l.foldl (fun a p => if g p then setAdd p a else a) acc ↔
      x ∈ acc ∨ (x ∈ l ∧ g x)) := by
  induction l generalizing acc with
  | nil => simp
  | cons p t ih =>
    rw [List.foldl_cons, ih]
    by_cases hg : g p
    · rw [if_pos hg]
      simp only [setAdd_mem, List.mem_cons]
      constructor
      · rintro ((h | rfl) | h)
        · exact Or.inl h
        · exact Or.inr ⟨Or.inl rfl, hg⟩
        · exact Or.inr ⟨Or.inr h.1, h.2⟩
      · rintro (h | ⟨(rfl | h), hx⟩)
        · exact Or.inl (Or.inl h)
        · exact Or.inl (Or.inr rfl)
        · exact Or.inr ⟨h, hx⟩
    · rw [if_neg hg]
      simp only [List.mem_cons]
      constructor
      · rintro (h | h)
        · exact Or.inl h
        · exact Or.inr ⟨Or.inr h.1, h.2⟩
      · rintro (h | ⟨(rfl | h), hx⟩)
        · exact Or.inl h
        · exact absurd hx hg
        · exact Or.inr ⟨h, hx⟩

theorem guardFold_nodup (g : Nat → Prop) [DecidablePred g] (l : List Nat) (acc : List Nat)
    (h : acc.Nodup) :
    (l.foldl (fun a p => if g p then setAdd p a else a) acc).Nodup := by
  induction l generalizing acc with
  | nil => exact h
  | cons p t ih =>
    rw [List.foldl_cons]
    by_cases hg : g p
    · rw [if_pos hg]
      exact ih _ (setAdd_nodup p acc h)
    · rw [if_neg hg]
      exact ih _ h

theorem addChunk_mem_bound (n : Nat) (chunk : List Char) (acc : List Nat)
    (hacc : ∀ x ∈ acc, 1 ≤ x ∧ (n = 0 ∨ x ≤ n)) :
    ∀ x ∈ addChunk n acc chunk, 1 ≤ x ∧ (n = 0 ∨ x ≤ n) := by
  intro x hx
  unfold addChunk at hx
  cases hm : matchRangePair chunk with
  | some ab =>
    obtain ⟨a, b⟩ := ab
    rw [hm] at hx
    dsimp only at hx
    rw [guardFold_mem] at hx
    rcases hx with hx | hx
    · exact hacc x hx
    · exact hx.2
  | none =>
    rw [hm] at hx
    dsimp only at hx
    cases hp : parseIntJS chunk with
    | some p =>
      rw [hp] at hx
      dsimp only at hx
      by_cases hg : 1 ≤ p ∧ (n = 0 ∨ p ≤ (n : Int))
      · rw [if_pos hg] at hx
        rcases (setAdd_mem x p.toNat acc).mp hx with hx | rfl
        · exact hacc x hx
        · omega
      · rw [if_neg hg] at hx
        exact hacc x hx
    | none =>
      rw [hp] at hx
      dsimp only at hx
      exact hacc x hx

theorem addChunk_nodup (n : Nat) (chunk : List Char) (acc : List Nat) (h : acc.Nodup) :
    (addChunk n acc chunk).Nodup := by
  unfold addChunk
  cases hm : matchRangePair chunk with
  | some ab =>
    obtain ⟨a, b⟩ := ab
    dsimp only
    exact guardFold_nodup _ _ acc h
  | none =>
    dsimp only
    cases hp : parseIntJS chunk with
    | some p =>
      dsimp only
      by_cases hg : 1 ≤ p ∧ (n = 0 ∨ p ≤ (n : Int))
      · rw [if_pos hg]
        exact setAdd_nodup _ acc h
      · rw [if_neg hg]
        exact h
    | none => exact h

theorem foldl_addChunk_bound (n : Nat) (chunks : List (List Char)) (acc : List Nat)
    (hacc : ∀ x ∈ acc, 1 ≤ x ∧ (n = 0 ∨ x ≤ n)) :
    ∀ x ∈ chunks.foldl (addChunk n) acc, 1 ≤ x ∧ (n = 0 ∨ x ≤ n) := by
  induction chunks generalizing acc with
  | nil => exact hacc
  | cons c t ih =>
    rw [List.foldl_cons]
    exact ih _ (addChunk_mem_bound n c acc hacc)

theorem foldl_addChunk_nodup (n : Nat) (chunks : List (List Char)) (acc : List Nat)
    (h : acc.Nodup) : (chunks.foldl (addChunk n) acc).Nodup := by
  induction chunks generalizing acc with
  | nil => exact h
  | cons c t ih =>
    rw [List.foldl_cons]
    exact ih _ (addChunk_nodup n c acc h)

/-- Every parsed page is at least 1, and at most `n` when `n` is nonzero
(the guard `p >= 1 && (!totalPages || p <= totalPages)`). -/
theorem parsePageRange_mem (s : String) (n : Nat) :
    ∀ p ∈ parsePageRange s n, 1 ≤ p ∧ (n = 0 ∨ p ≤ n) := by
  intro p hp
  unfold parsePageRange parsePageRangeL at hp
  by_cases h : trimChars s.data = []
  · rw [if_pos h] at hp
    exact absurd hp (List.not_mem_nil p)
  · rw [if_neg h] at hp
    dsimp only at hp
    rw [List.mem_insertionSort] at hp
    exact foldl_addChunk_bound n _ []
      (fun x hx => absurd hx (List.not_mem_nil x)) p hp

/-- The parse result is strictly ascending: the accumulated set is
duplicate-free and the final sort is ascending. -/
theorem parsePageRange_sorted (s : String) (n : Nat) :
    (parsePageRange s n).Sorted (· < ·) := by
  unfold parsePageRange parsePageRangeL
  by_cases h : trimChars s.data = []
  · rw [if_pos h]
    exact List.sorted_nil
  · rw [if_neg h]
    dsimp only
    apply List.Sorted.lt_of_le
    · exact List.sorted_insertionSort _ _
    · exact ((List.perm_insertionSort _ _).nodup_iff).mpr
        (foldl_addChunk_nodup n _ [] List.nodup_nil)

/-! ## Lemmas about `splitPdf` -/

theorem filterMap_filter_of_none {A B : Type} (pred : A → Bool) (f : A → Option B)
    (l : List A) (h : ∀ a ∈ l, pred a = false → f a = none) :
    (l.filter pred).filterMap f = l.filterMap f := by
  induction l with
  | nil => rfl
  | cons a t ih =>
    have ht : ∀ x ∈ t, pred x = false → f x = none :=
      fun x hx => h x (List.mem_cons_of_mem a hx)
    by_cases hp : pred a = true
    · rw [List.filter_cons_of_pos hp, List.filterMap_cons, List.filterMap_cons]
      cases f a with
      | none => exact ih ht
      | some b => rw [ih ht]
    · have hf : f a = none :=
        h a (List.mem_cons_self a t) (Bool.not_eq_true _ ▸ (by simpa using hp))
      rw [List.filter_cons_of_neg hp, List.filterMap_cons, hf, ih ht]

/-- `subsetPdf` on a list of 1-based pages that are all positive: the
result keeps exactly the pages that exist in the document, in order
(pages beyond the end contribute nothing, mirroring the bounds filter). -/
theorem subsetPdf_natPages {P : Type} (doc : List P) (pages : List Nat) (hne : pages ≠ [])
    (h1 : ∀ p ∈ pages, 1 ≤ p) :
    subsetPdf doc (pages.map (fun p : Nat => (p : Int))) =
      Except.ok (pages.filterMap (fun p => doc.get? (p - 1))) := by
  rw [subsetPdf_ok_filter doc _ (by simpa using hne)]
  congr 1
  rw [List.filter_map, List.filterMap_map]
  have hcong : ∀ p ∈ pages.filter
      ((fun q : Int => decide (1 ≤ q ∧ q ≤ (doc.length : Int))) ∘ (fun p : Nat => (p : Int))),
      ((fun q : Int => doc.get? (q - 1).toNat) ∘ (fun p : Nat => (p : Int))) p =
        doc.get? (p - 1) := by
    intro p hp
    have hmem := List.mem_filter.mp hp
    have hb : 1 ≤ (p : Int) ∧ (p : Int) ≤ (doc.length : Int) := by
      have := hmem.2
      simp only [Function.comp] at this
      exact of_decide_eq_true this
    simp only [Function.comp]
    congr 1
    omega
  rw [List.filterMap_congr hcong]
  apply filterMap_filter_of_none
  intro p hp hfalse
  simp only [Function.comp, decide_eq_false_iff_not, not_and, not_le] at hfalse
  have h1p := h1 p hp
  have hlen : doc.length < p := by
    have := hfalse (by exact_mod_cast h1p)
    exact_mod_cast this
  apply List.get?_len_le
  omega

/-- The per-range loop never fails and produces, in order, one output per
range spec that resolves to a non-empty page list. -/
theorem splitGo_ok {P : Type} (doc : List P) (ranges : List String) :
    splitGo doc doc.length ranges = Except.ok
      (((ranges.map (fun r => parsePageRange r doc.length)).filter
          (fun pages => !pages.isEmpty)).map
        (fun pages => pages.filterMap (fun p => doc.get? (p - 1)))) := by
  induction ranges with
  | nil => rfl
  | cons r t ih =>
    unfold splitGo
    dsimp only
    by_cases hemp : (parsePageRange r doc.length).isEmpty = true
    · rw [if_pos hemp, ih]
      simp [List.filter_cons, hemp]
    · rw [if_neg hemp]
      have hne : parsePageRange r doc.length ≠ [] := by
        simpa [List.isEmpty_iff] using hemp
      rw [subsetPdf_natPages doc _ hne
        (fun p hp => (parsePageRange_mem r doc.length p hp).1)]
      rw [ih]
      simp [List.filter_cons, hemp]

/-! ## Theorems: job lifecycle (C1, C2, C6) -/

/-- C1, counterexample.  The claim says that once a job is cancelled no
operation further mutates `progress`/`etaSeconds`/`outputPath`, and that
the finalize step discards the result "on success or on failure alike".
On the code this is false: the `catch` block of `runConversionJob`
performs no status check, so a job cancelled mid-run is overwritten to
`failed` (its `etaSeconds` cleared), and the `progress` closure mutates a
cancelled job's `progress` as well. -/
theorem cancelledJob_further_mutated :
    (finalizeFailure
        { status := Status.cancelled, progress := 40, etaSeconds := some 7,
          outputPath := some "out.pdf", error := none } "boom").status = Status.failed ∧
    (finalizeFailure
        { status := Status.cancelled, progress := 40, etaSeconds := some 7,
          outputPath := some "out.pdf", error := none } "boom").etaSeconds = none ∧
    (applyProgress
        { status := Status.cancelled, progress := 40, etaSeconds := some 7,
          outputPath := some "out.pdf", error := none } 80 5000 1000).progress = 80 := by
  refine ⟨rfl, rfl, ?_⟩
  norm_num [applyProgress]

/-- C1, amended: only the success finalize checks the status first and
leaves a cancelled job entirely unmutated (the conversion result is
discarded); the cancel endpoint refuses to touch a `completed` or `failed`
job.  The failure finalize and the progress callback, by contrast, mutate
without any status check (see the counterexample). -/
theorem finalize_terminal_guards :
    (∀ (j : Job) (out : Option String), j.status = Status.cancelled →
      finalizeSuccess j out = j) ∧
    (∀ j : Job, j.status = Status.completed ∨ j.status = Status.failed →
      cancelJob j = Except.error "Job already finished") := by
  constructor
  · intro j out h
    simp [finalizeSuccess, h]
  · intro j h
    unfold cancelJob
    rw [if_pos h]

/-- C1 witness: the amended guarantees applied to concrete jobs. -/
theorem finalize_terminal_guards_witness :
    finalizeSuccess
      { status := Status.cancelled, progress := 40, etaSeconds := some 7,
        outputPath := none, error := none } (some "late.pdf") =
      { status := Status.cancelled, progress := 40, etaSeconds := some 7,
        outputPath := none, error := none } ∧
    cancelJob
      { status := Status.completed, progress := 100, etaSeconds := some 0,
        outputPath := some "o.pdf", error := none } =
      Except.error "Job already finished" :=
  ⟨finalize_terminal_guards.1 _ (some "late.pdf") rfl,
   finalize_terminal_guards.2 _ (Or.inl rfl)⟩

/-- C2, counterexample.  The claim says `etaSeconds = max(0, round(...))`
whenever `p > 0`.  But the code's truthiness test `rate ? ... : null`
treats a zero rate as false: when the update arrives in the same
millisecond as the start (`elapsed = 0`) and `p = 50 > 0`, the code
stores `null` while the claimed formula yields `0`. -/
theorem applyProgress_eta_zero_elapsed :
    (applyProgress { newJob with status := Status.running } 50 1000 1000).etaSeconds = none ∧
    etaSpecC2 50 (((1000 : ℚ) - 1000) / 1000) = some 0 ∧
    (none : Option ℤ) ≠ some 0 := by
  refine ⟨?_, ?_, by simp⟩
  · norm_num [applyProgress, newJob]
  · norm_num [etaSpecC2, round_eq]

/-- C2, amended: for an update `p ∈ [0,100]` the registry stores
`progress = p` and sets
`etaSeconds = max(0, round(elapsed / (p/100) - elapsed))` when `p > 0`
and the elapsed time is nonzero; it stores `null` when `p = 0` or when
`elapsed = 0` (the zero rate is JS-falsy). -/
theorem applyProgress_eta_characterization (j : Job) (p now started : ℚ)
    (h0 : 0 ≤ p) (h100 : p ≤ 100) :
    (applyProgress j p now started).progress = p ∧
    (applyProgress j p now started).etaSeconds =
      (if 0 < p ∧ now ≠ started then
        some (max 0 (round ((now - started) / 1000 / (p / 100) - (now - started) / 1000)))
      else none) := by
  have hclamp : max 0 (min 100 p) = p := by
    rw [min_eq_right h100, max_eq_right h0]
  unfold applyProgress
  simp only [hclamp]
  refine ⟨trivial, ?_⟩
  by_cases hp : 0 < p
  · by_cases he : now = started
    · subst he
      simp [hp]
    · have hsub : now - started ≠ 0 := sub_ne_zero.mpr he
      have hel : (now - started) / 1000 ≠ 0 := div_ne_zero hsub (by norm_num)
      have hr : (now - started) / 1000 / (p / 100) ≠ 0 :=
        div_ne_zero hel (div_ne_zero (ne_of_gt hp) (by norm_num))
      simp [hp, he, hr]
  · have hp0 : p = 0 := le_antisymm (not_lt.mp hp) h0
    simp [hp0]

/-- C2 witness: a second-long 50% update gives an ETA of one second. -/
theorem applyProgress_eta_characterization_witness :
    (applyProgress newJob 50 2000 1000).progress = 50 ∧
    (applyProgress newJob 50 2000 1000).etaSeconds =
      (if (0 : ℚ) < 50 ∧ (2000 : ℚ) ≠ 1000 then
        some (max 0 (round (((2000 : ℚ) - 1000) / 1000 / ((50 : ℚ) / 100) -
          ((2000 : ℚ) - 1000) / 1000)))
      else none) :=
  applyProgress_eta_characterization newJob 50 2000 1000 (by norm_num) (by norm_num)

/-- C6, counterexample.  The claim says the progress values observed
across any series of updates are non-decreasing while the job is running.
The `progress` closure stores the clamped reported value without
comparing it with the current one, so the series 10, 5 is observed as
10 then 5 — a decrease — while the job stays `running`. -/
theorem progress_can_decrease :
    (applyProgress (applyProgress { newJob with status := Status.running } 10 1000 1000)
        5 2000 1000).progress <
      (applyProgress { newJob with status := Status.running } 10 1000 1000).progress ∧
    (applyProgress (applyProgress { newJob with status := Status.running } 10 1000 1000)
        5 2000 1000).status = Status.running := by
  refine ⟨?_, rfl⟩
  norm_num [applyProgress]

/-- C6, amended: the stored progress is exactly the clamped last reported
value, so the observed series is non-decreasing exactly when the reported
(clamped) values are; the registry itself enforces no monotonicity. -/
theorem progress_tracks_reported_value :
    (∀ (j : Job) (p now started : ℚ),
      (applyProgress j p now started).progress = max 0 (min 100 p)) ∧
    (∀ (j : Job) (p now started : ℚ), j.progress ≤ max 0 (min 100 p) →
      j.progress ≤ (applyProgress j p now started).progress) := by
  refine ⟨fun j p now started => rfl, fun j p now started h => ?_⟩
  simpa [applyProgress] using h

/-- C6 witness: a non-decreasing pair of updates keeps progress
non-decreasing. -/
theorem progress_tracks_reported_value_witness :
    (applyProgress newJob 10 1000 1000).progress = max 0 (min 100 10) ∧
    newJob.progress ≤ max 0 (min 100 (10 : ℚ)) ∧
    newJob.progress ≤ (applyProgress newJob 10 1000 1000).progress :=
  ⟨progress_tracks_reported_value.1 newJob 10 1000 1000,
   by norm_num [newJob],
   progress_tracks_reported_value.2 newJob 10 1000 1000 (by norm_num [newJob])⟩

/-! ## Theorems: category dispatch (C9) -/

/-- C9: `detectCategory` checks the extension against the capabilities in
the hard-coded order audio, image, document, archive, presentation, font,
ebook (first match wins), so an extension supported by both the document
and the ebook capability — pdf, txt, html, epub — is dispatched to the
document converter, never the ebook converter; in particular `.pdf` and
`.epub` uploads go to the document converter. -/
theorem detectCategory_priority_order :
    (∀ e : String, categoryForExt e = firstMatchCategory e) ∧
    (∀ e : String, e ∈ documentInputs → e ∈ ebookInputs →
      categoryForExt e = Category.document) ∧
    detectCategory "upload.pdf" = Category.document ∧
    detectCategory "upload.epub" = Category.document := by
  refine ⟨fun e => rfl, ?_, by decide, by decide⟩
  intro e hd he
  simp only [documentInputs, List.mem_cons, List.not_mem_nil, or_false] at hd
  rcases hd with rfl | rfl | rfl | rfl | rfl | rfl | rfl | rfl | rfl
  · decide
  · exact absurd he (by decide)
  · exact absurd he (by decide)
  · decide
  · exact absurd he (by decide)
  · exact absurd he (by decide)
  · decide
  · exact absurd he (by decide)
  · decide

/-- C9 witness: the shared extensions, applied concretely. -/
theorem detectCategory_priority_order_witness :
    categoryForExt "pdf" = firstMatchCategory "pdf" ∧
    categoryForExt "epub" = Category.document :=
  ⟨detectCategory_priority_order.1 "pdf",
   detectCategory_priority_order.2.1 "epub" (by decide) (by decide)⟩

/-! ## Theorems: page algebra (C3, C4, C7, C8) -/

/-- C4, counterexample.  The claim says that a non-empty page list with
an out-of-range index makes the subset operation fail with a
`DocumentError`.  On the code this is false: `subsetPdf` filters
out-of-range indices away before `copyPages` and silently produces the
document from the in-range pages only — here pages `[1, 5]` of a 2-page
document yield page 1 without any error. -/
theorem subset_out_of_range_no_error :
    subsetPdf (["a", "b"] : List String) [1, 5] = Except.ok ["a"] := rfl

/-- C4, amended: for every non-empty page list the subset operation
succeeds, producing exactly the in-range pages in the order given
(out-of-range entries are silently dropped by the bounds filter, not
reported). -/
theorem subset_drops_out_of_range (P : Type) (doc : List P) (pages : List Int)
    (h : pages ≠ []) :
    subsetPdf doc pages =
      Except.ok ((pages.filter (fun p => 1 ≤ p ∧ p ≤ (doc.length : Int))).filterMap
        (fun p => doc.get? (p - 1).toNat)) :=
  subsetPdf_ok_filter doc pages h

/-- C4 witness: the amended statement at the counterexample's input. -/
theorem subset_drops_out_of_range_witness :
    subsetPdf (["a", "b"] : List String) [1, 5] =
      Except.ok ((([1, 5] : List Int).filter
          (fun p => 1 ≤ p ∧ p ≤ ((["a", "b"] : List String).length : Int))).filterMap
        (fun p => (["a", "b"] : List String).get? (p - 1).toNat)) :=
  subset_drops_out_of_range String ["a", "b"] [1, 5] (by simp)

/-- C8: an empty or all-blank range spec parses to the empty sequence,
and `subsetPdf` treats an empty page list as "all pages": the output has
the same pages as the input, in the same order. -/
theorem emptySpec_allPages :
    (∀ (s : String) (n : Nat), trimChars s.data = [] → parsePageRange s n = []) ∧
    (∀ (P : Type) (doc : List P), subsetPdf doc [] = Except.ok doc) := by
  constructor
  · intro s n h
    unfold parsePageRange parsePageRangeL
    rw [if_pos h]
  · intro P doc
    exact subsetPdf_nil doc

/-- C8 witness: a blank spec and a concrete two-page document. -/
theorem emptySpec_allPages_witness :
    parsePageRange "  " 5 = [] ∧
    subsetPdf (["a", "b"] : List String) [] = Except.ok ["a", "b"] :=
  ⟨emptySpec_allPages.1 "  " 5 (by decide),
   emptySpec_allPages.2 String ["a", "b"]⟩

/-- C3, counterexample.  The claim quantifies over every `totalPages n`
and asserts every parsed value lies in `[1, n]`.  For `n = 0` (a
zero-page document) the JS-falsy check `!totalPages` disables the upper
clamp, so `parsePageRange("5", 0) = [5]`, and `5` does not lie in
`[1, 0]`. -/
theorem parsePageRange_zero_total :
    parsePageRange "5" 0 = [5] ∧ ¬ (5 ≤ 0) := by decide

/-- C3, amended: for every range spec and every known, nonzero page count
`n`, `parsePageRange` returns a strictly ascending, duplicate-free
sequence whose values all lie in `[1, n]` (reversed pairs are
order-normalized and out-of-bound values dropped along the way). -/
theorem parsePageRange_ascending_in_bounds (s : String) (n : Nat) (hn : 1 ≤ n) :
    (parsePageRange s n).Sorted (· < ·) ∧
    (∀ p ∈ parsePageRange s n, 1 ≤ p ∧ p ≤ n) := by
  refine ⟨parsePageRange_sorted s n, fun p hp => ?_⟩
  have := parsePageRange_mem s n p hp
  omega

/-- C3 witness: the spec's own example, including reversed-range
normalization and duplicate collapse. -/
theorem parsePageRange_ascending_in_bounds_witness :
    ((parsePageRange "3-1,5,5,2" 10).Sorted (· < ·) ∧
      (∀ p ∈ parsePageRange "3-1,5,5,2" 10, 1 ≤ p ∧ p ≤ 10)) ∧
    parsePageRange "3-1,5,5,2" 10 = [1, 2, 3, 5] :=
  ⟨parsePageRange_ascending_in_bounds "3-1,5,5,2" 10 (by norm_num), by decide⟩

/-- C7, counterexample.  The claim quantifies over every list of range
specs and says one output is produced per non-empty-resolving spec.
For the empty spec list the code does not return an empty output list: it
throws `split: no ranges provided`. -/
theorem split_empty_ranges_error :
    splitPdf (["a"] : List String) ([] : List String) =
      Except.error "split: no ranges provided" := rfl

/-- C7, amended: for every non-empty list of range specs, `splitPdf`
processes the specs in array order, resolves each against the source's
page count, skips specs resolving to no pages, and returns — in the order
of the surviving specs — one document per spec holding exactly that
spec's existing pages (an empty spec list is instead rejected with
`split: no ranges provided`). -/
theorem split_per_spec (P : Type) (doc : List P) (ranges : List String) (h : ranges ≠ []) :
    splitPdf doc ranges = Except.ok
      (((ranges.map (fun r => parsePageRange r doc.length)).filter
          (fun pages => !pages.isEmpty)).map
        (fun pages => pages.filterMap (fun p => doc.get? (p - 1)))) := by
  unfold splitPdf
  have hne : ranges.isEmpty = false := by simpa [List.isEmpty_iff] using h
  rw [hne]
  simp only [Bool.false_eq_true, if_false]
  exact splitGo_ok doc ranges

/-- C7 witness: the spec's example — a 10-page document split with
`["1-3", "20-30"]` yields exactly one output, pages 1–3. -/
theorem split_per_spec_witness :
    splitPdf (["p1", "p2", "p3", "p4", "p5", "p6", "p7", "p8", "p9", "p10"] : List String)
        ["1-3", "20-30"] = Except.ok
      (((["1-3", "20-30"].map (fun r => parsePageRange r
            (["p1", "p2", "p3", "p4", "p5", "p6", "p7", "p8", "p9", "p10"] : List String).length)).filter
          (fun pages => !pages.isEmpty)).map
        (fun pages => pages.filterMap
          (fun p => (["p1", "p2", "p3", "p4", "p5", "p6", "p7", "p8", "p9", "p10"] : List String).get? (p - 1)))) ∧
    splitPdf (["p1", "p2", "p3", "p4", "p5", "p6", "p7", "p8", "p9", "p10"] : List String)
        ["1-3", "20-30"] = Except.ok [["p1", "p2", "p3"]] :=
  ⟨split_per_spec String _ ["1-3", "20-30"] (by simp), rfl⟩

/-! ## Theorems: bounded worker pool (C5, C10) -/

theorem launchGo_fields {R : Type} (limit n : Nat) :
    ∀ (fuel : Nat) (s : PoolState R),
      (launchGo limit n fuel s).results = s.results ∧
      (launchGo limit n fuel s).resolved = s.resolved ∧
      (launchGo limit n fuel s).rejected = s.rejected := by
  intro fuel
  induction fuel with
  | zero => intro s; exact ⟨rfl, rfl, rfl⟩
  | succ m ih =>
    intro s
    rw [launchGo]
    by_cases h : s.inflight.card < limit ∧ s.next < n
    · rw [if_pos h]
      exact ih (spawnOne s)
    · rw [if_neg h]
      exact ⟨rfl, rfl, rfl⟩

theorem launchGo_next_le {R : Type} (limit n : Nat) :
    ∀ (fuel : Nat) (s : PoolState R), s.next ≤ (launchGo limit n fuel s).next := by
  intro fuel
  induction fuel with
  | zero => intro s; exact Nat.le_refl _
  | succ m ih =>
    intro s
    rw [launchGo]
    by_cases h : s.inflight.card < limit ∧ s.next < n
    · rw [if_pos h]
      exact Nat.le_trans (Nat.le_succ _) (ih (spawnOne s))
    · rw [if_neg h]

theorem launchGo_next_le_n {R : Type} (limit n : Nat) :
    ∀ (fuel : Nat) (s : PoolState R), s.next ≤ n → (launchGo limit n fuel s).next ≤ n := by
  intro fuel
  induction fuel with
  | zero => intro s hs; exact hs
  | succ m ih =>
    intro s hs
    rw [launchGo]
    by_cases h : s.inflight.card < limit ∧ s.next < n
    · rw [if_pos h]
      exact ih (spawnOne s) h.2
    · rw [if_neg h]
      exact hs

theorem launchGo_mem {R : Type} (limit n : Nat) :
    ∀ (fuel : Nat) (s : PoolState R) (i : Nat),
      (i ∈ (launchGo limit n fuel s).inflight ↔
        i ∈ s.inflight ∨ (s.next ≤ i ∧ i < (launchGo limit n fuel s).next)) := by
  intro fuel
  induction fuel with
  | zero =>
    intro s i
    simp only [launchGo]
    constructor
    · exact Or.inl
    · rintro (h | ⟨h1, h2⟩)
      · exact h
      · omega
  | succ m ih =>
    intro s i
    rw [launchGo]
    by_cases h : s.inflight.card < limit ∧ s.next < n
    · rw [if_pos h]
      rw [ih (spawnOne s) i]
      have hnext : (spawnOne s).next ≤ (launchGo limit n m (spawnOne s)).next :=
        launchGo_next_le limit n m (spawnOne s)
      have hsp : (spawnOne s).next = s.next + 1 := rfl
      constructor
      · rintro (hm | ⟨h1, h2⟩)
        · rcases Finset.mem_insert.mp hm with rfl | hm
          · exact Or.inr ⟨Nat.le_refl _, by omega⟩
          · exact Or.inl hm
        · exact Or.inr ⟨by omega, h2⟩
      · rintro (hm | ⟨h1, h2⟩)
        · exact Or.inl (Finset.mem_insert_of_mem hm)
        · by_cases hi : i = s.next
          · exact Or.inl (hi ▸ Finset.mem_insert_self _ _)
          · exact Or.inr ⟨by omega, h2⟩
    · rw [if_neg h]
      constructor
      · exact Or.inl
      · rintro (hm | ⟨h1, h2⟩)
        · exact hm
        · omega

theorem launchGo_card {R : Type} (limit n : Nat) :
    ∀ (fuel : Nat) (s : PoolState R), (∀ j ∈ s.inflight, j < s.next) →
      s.inflight.card ≤ limit → (launchGo limit n fuel s).inflight.card ≤ limit := by
  intro fuel
  induction fuel with
  | zero => intro s _ h; exact h
  | succ m ih =>
    intro s hlt hc
    rw [launchGo]
    by_cases h : s.inflight.card < limit ∧ s.next < n
    · rw [if_pos h]
      apply ih (spawnOne s)
      · intro j hj
        rcases Finset.mem_insert.mp hj with rfl | hj
        · exact Nat.lt_succ_self _
        · exact Nat.lt_succ_of_lt (hlt j hj)
      · have hfresh : s.next ∉ s.inflight := fun hmem => absurd (hlt _ hmem) (by omega)
        rw [show (spawnOne s).inflight = insert s.next s.inflight from rfl,
          Finset.card_insert_of_not_mem hfresh]
        omega
    · rw [if_neg h]
      exact hc

theorem launchGo_post {R : Type} (limit n : Nat) :
    ∀ (fuel : Nat) (s : PoolState R), n - s.next ≤ fuel →
      ¬((launchGo limit n fuel s).inflight.card < limit ∧
        (launchGo limit n fuel s).next < n) := by
  intro fuel
  induction fuel with
  | zero =>
    intro s hf
    rintro ⟨_, h2⟩
    simp only [launchGo] at h2
    omega
  | succ m ih =>
    intro s hf
    rw [launchGo]
    by_cases h : s.inflight.card < limit ∧ s.next < n
    · rw [if_pos h]
      apply ih (spawnOne s)
      have : (spawnOne s).next = s.next + 1 := rfl
      omega
    · rw [if_neg h]
      exact h

theorem pool_inv_launch {I R : Type} (items : List I) (worker : I → R) (limit : Nat)
    (s : PoolState R)
    (h1 : s.results.length = items.length)
    (h2 : s.next ≤ items.length)
    (h3 : ∀ i ∈ s.inflight, i < s.next)
    (h4 : s.inflight.card ≤ limit)
    (h6 : ∀ k, k < s.next → k ∉ s.inflight →
      s.results.get? k = some ((items.get? k).map worker))
    (h7 : ∀ k, s.next ≤ k → k < items.length → s.results.get? k = some none)
    (h8 : s.resolved = false) :
    PoolInv items worker limit (launch limit items.length s) := by
  set n := items.length with hn
  unfold launch
  have hres := (launchGo_fields limit n (n - s.next) s).1
  have hrlv := (launchGo_fields limit n (n - s.next) s).2.1
  have hle := launchGo_next_le limit n (n - s.next) s
  have hlen := launchGo_next_le_n limit n (n - s.next) s h2
  have hmem := launchGo_mem limit n (n - s.next) s
  have hcard := launchGo_card limit n (n - s.next) s h3 h4
  have hpost := launchGo_post limit n (n - s.next) s (Nat.le_refl _)
  refine ⟨?_, ?_, ?_, ?_, ?_, ?_, ?_, ?_⟩
  · rw [hres, h1]
  · exact hlen
  · intro i hi
    rcases (hmem i).mp hi with hi | ⟨hi1, hi2⟩
    · exact Nat.lt_of_lt_of_le (h3 i hi) hle
    · exact hi2
  · exact hcard
  · intro hlt
    rcases Nat.lt_or_ge (launch limit n s).inflight.card limit with hc | hc
    · exact absurd ⟨hc, hlt⟩ hpost
    · omega
  · intro k hk hkn
    have hnot : k ∉ s.inflight := fun hmem2 => hkn ((hmem k).mpr (Or.inl hmem2))
    by_cases hks : k < s.next
    · rw [hres]
      exact h6 k hks hnot
    · exact absurd ((hmem k).mpr (Or.inr ⟨by omega, hk⟩)) hkn
  · intro k hk hkn
    rw [hres]
    exact h7 k (Nat.le_trans hle hk) hkn
  · intro hr
    rw [hrlv] at hr
    rw [h8] at hr
    exact absurd hr (by simp)

theorem pool_inv_init {I R : Type} (items : List I) (worker : I → R) (limit : Nat) :
    PoolInv items worker limit (poolStart R limit items.length) := by
  apply pool_inv_launch
  · exact List.length_replicate _ _
  · exact Nat.zero_le _
  · intro i hi
    exact absurd hi (Finset.not_mem_empty i)
  · simp [initState]
  · intro k hk hk2
    exact absurd hk (by simp [initState])
  · intro k _ hk
    simp [initState, List.get?_eq_getElem?, List.getElem?_replicate, hk]
  · rfl

theorem pool_inv_step {I R : Type} (items : List I) (worker : I → R) (limit : Nat)
    (s : PoolState R) (i : Nat) (hinv : PoolInv items worker limit s) (hi : i ∈ s.inflight) :
    PoolInv items worker limit (completeStep items worker limit i s) := by
  obtain ⟨h1, h2, h3, h4, h5, h6, h7, h8⟩ := hinv
  have hilt : i < s.next := h3 i hi
  have hin : i < items.length := by omega
  unfold completeStep
  dsimp only
  have hreslen : (s.results.set i ((items.get? i).map worker)).length = items.length := by
    rw [List.length_set, h1]
  have h3' : ∀ j ∈ s.inflight.erase i, j < s.next :=
    fun j hj => h3 j (Finset.mem_of_mem_erase hj)
  have h4' : (s.inflight.erase i).card ≤ limit :=
    Nat.le_trans Finset.card_erase_le h4
  have h6' : ∀ k, k < s.next → k ∉ s.inflight.erase i →
      (s.results.set i ((items.get? i).map worker)).get? k =
        some ((items.get? k).map worker) := by
    intro k hk hknot
    by_cases hki : k = i
    · subst hki
      have hklen : k < s.results.length := by rw [h1]; exact hin
      exact List.get?_set_eq_of_lt _ hklen
    · rw [List.get?_set_ne _ _ (fun h => hki h.symm)]
      apply h6 k hk
      intro hmem
      exact hknot (Finset.mem_erase.mpr ⟨hki, hmem⟩)
  have h7' : ∀ k, s.next ≤ k → k < items.length →
      (s.results.set i ((items.get? i).map worker)).get? k = some none := by
    intro k hk hkn
    have hki : i ≠ k := by omega
    rw [List.get?_set_ne _ _ hki]
    exact h7 k hk hkn
  by_cases hg : items.length ≤ s.next ∧ s.inflight.erase i = ∅
  · rw [if_pos hg]
    exact ⟨hreslen, h2, h3', h4',
      fun hlt => absurd (show s.next < items.length from hlt) (by omega),
      h6', h7', fun _ => ⟨hg.1, hg.2⟩⟩
  · rw [if_neg hg]
    have h8f : s.resolved = false := by
      by_contra hc
      have hres : s.resolved = true := by
        revert hc
        cases s.resolved <;> simp
      rw [(h8 hres).2] at hi
      exact absurd hi (Finset.not_mem_empty i)
    exact pool_inv_launch items worker limit _ hreslen h2 h3' h4' h6' h7' h8f

theorem pool_inv_fail {I R : Type} (items : List I) (worker : I → R) (limit : Nat)
    (s : PoolState R) (hinv : PoolInv items worker limit s) :
    PoolInv items worker limit (failStep s) := by
  obtain ⟨h1, h2, h3, h4, h5, h6, h7, h8⟩ := hinv
  exact ⟨h1, h2, h3, h4, h5, h6, h7, h8⟩

theorem pool_reachable_inv {I R : Type} (items : List I) (worker : I → R) (limit : Nat) :
    ∀ s : PoolState R, PoolReachable items worker limit s →
      PoolInv items worker limit s := by
  intro s hs
  induction hs with
  | init => exact pool_inv_init items worker limit
  | step hr hi ih => exact pool_inv_step items worker limit _ _ ih hi
  | fail hr hi ih => exact pool_inv_fail items worker limit _ ih

theorem launch_mem {R : Type} (limit n : Nat) (s : PoolState R) (i : Nat) :
    i ∈ (launch limit n s).inflight ↔
      i ∈ s.inflight ∨ (s.next ≤ i ∧ i < (launch limit n s).next) := by
  unfold launch
  exact launchGo_mem limit n (n - s.next) s i

theorem launch_next_gt {R : Type} (limit n : Nat) (s : PoolState R)
    (hcard : s.inflight.card < limit) (hnext : s.next < n) :
    s.next < (launch limit n s).next := by
  unfold launch
  obtain ⟨m, hm⟩ : ∃ m, n - s.next = m + 1 := ⟨n - s.next - 1, by omega⟩
  rw [hm, launchGo, if_pos ⟨hcard, hnext⟩]
  have hle := launchGo_next_le limit n m (spawnOne s)
  have hsp : (spawnOne s).next = s.next + 1 := rfl
  omega

/-- C5: in every state the pool can reach under any completion order,
at most `limit` workers are in flight; when a worker completes while
queued items remain, the next item is started within that very completion
step (sliding window, not batched rounds); and when the pool resolves,
slot `k` of the result array holds the worker's result for `items[k]`. -/
theorem runLimited_bounded_ordered {I R : Type} (items : List I) (limit : Nat)
    (worker : I → R) (hlim : 1 ≤ limit) (s : PoolState R)
    (hs : PoolReachable items worker limit s) :
    s.inflight.card ≤ limit ∧
    (∀ i ∈ s.inflight, s.next < items.length →
      s.next ∈ (completeStep items worker limit i s).inflight) ∧
    (s.resolved = true → s.results = items.map (fun it => some (worker it))) := by
  obtain ⟨h1, h2, h3, h4, h5, h6, h7, h8⟩ := pool_reachable_inv items worker limit s hs
  refine ⟨h4, ?_, ?_⟩
  · intro i hi hlt
    unfold completeStep
    dsimp only
    have hg : ¬(items.length ≤ s.next ∧ s.inflight.erase i = ∅) :=
      fun hg => absurd hg.1 (by omega)
    rw [if_neg hg]
    apply (launch_mem limit items.length _ s.next).mpr
    refine Or.inr ⟨Nat.le_refl _, ?_⟩
    exact launch_next_gt limit items.length
      { next := s.next, inflight := s.inflight.erase i,
        results := s.results.set i ((items.get? i).map worker),
        resolved := s.resolved, rejected := s.rejected }
      (by
        show (s.inflight.erase i).card < limit
        have hcarde := Finset.card_erase_of_mem hi
        have hpos : 0 < s.inflight.card := Finset.card_pos.mpr ⟨i, hi⟩
        omega)
      hlt
  · intro hres
    obtain ⟨hn, hempty⟩ := h8 hres
    apply List.ext_get?
    intro k
    by_cases hk : k < items.length
    · rw [h6 k (by omega) (by rw [hempty]; exact Finset.not_mem_empty k)]
      cases hik : items.get? k with
      | none =>
        have := List.get?_eq_none.mp hik
        omega
      | some a =>
        rw [List.get?_map, hik]
        rfl
    · rw [List.get?_len_le (by omega : s.results.length ≤ k),
        List.get?_len_le (by simp; omega : (items.map (fun it => some (worker it))).length ≤ k)]

/-- C10: with an empty item list the executor's initial `launch()` loop
body never runs, so the only reachable state is the initial one — no
worker ever completes or fails, `resolve()` and `reject()` are never
called (both are invoked only from within a worker's completion
handling), and the promise stays pending forever. -/
theorem pool_empty_items_pending {I R : Type} (worker : I → R) (limit : Nat)
    (s : PoolState R) (hs : PoolReachable ([] : List I) worker limit s) :
    s = initState R 0 ∧ s.resolved = false ∧ s.rejected = false ∧ s.inflight = ∅ := by
  induction hs with
  | init => exact ⟨rfl, rfl, rfl, rfl⟩
  | step hr hi ih =>
    rw [ih.2.2.2] at hi
    exact absurd hi (Finset.not_mem_empty _)
  | fail hr hi ih =>
    rw [ih.2.2.2] at hi
    exact absurd hi (Finset.not_mem_empty _)

/-- C5 witness: a full run of three items at limit 2, completing in the
order 0, 1, 2; the resolved result array is the in-order image of the
items. -/
theorem runLimited_bounded_ordered_witness :
    (completeStep [10, 20, 30] (fun x : Nat => x + 1) 2 2
        (completeStep [10, 20, 30] (fun x : Nat => x + 1) 2 1
          (completeStep [10, 20, 30] (fun x : Nat => x + 1) 2 0
            (poolStart Nat 2 ([10, 20, 30] : List Nat).length)))).results =
      ([10, 20, 30] : List Nat).map (fun it => some (it + 1)) :=
  (runLimited_bounded_ordered [10, 20, 30] 2 (fun x : Nat => x + 1) (by norm_num) _
    (PoolReachable.step
      (PoolReachable.step
        (PoolReachable.step PoolReachable.init (by decide))
        (by decide))
      (by decide))).2.2 (by decide)

/-- C10 witness: the initial state for an empty batch, concretely. -/
theorem pool_empty_items_pending_witness :
    poolStart Nat 4 (([] : List Nat).length) = initState Nat 0 ∧
    (poolStart Nat 4 (([] : List Nat).length)).resolved = false ∧
    (poolStart Nat 4 (([] : List Nat).length)).rejected = false ∧
    (poolStart Nat 4 (([] : List Nat).length)).inflight = ∅ :=
  pool_empty_items_pending (fun x : Nat => x) 4 _ PoolReachable.init

end MegaConvert
